import Mathlib

/-!
Verification of the C-similarity engine (script_codigos_c).

This file shallowly embeds the lexical pipeline and similarity kernel of
`c_similarity_fine_final.py` (and, where the claims reference them, the
sibling implementations in `c_similarity_final.py` and
`c_similarity_fine.py`) and proves the frozen claims about them.

Strings are modelled as `List Char` at the scanning level; Python's
regexes over the ASCII sublanguage used by the scripts are modelled by
explicit character-level scanners.
-/

namespace CSim

/-- Character class of Python's `str.isspace` restricted to ASCII, which is
all the scripts ever feed it. -/
def pyIsSpace (c : Char) : Bool :=
  c = ' ' || c = '\t' || c = '\n' || c = '\r' || c = '\x0b' || c = '\x0c'

/-- Regex class `\w` = `[A-Za-z0-9_]` (ASCII). -/
def isWordChar (c : Char) : Bool :=
  c.isAlpha || c.isDigit || c = '_'

/-- First character of the identifier alternative `[A-Za-z_][A-Za-z_0-9]*`. -/
def isIdStart (c : Char) : Bool :=
  c.isAlpha || c = '_'

/-- Hexadecimal digit, for the `0x[0-9A-Fa-f]+` alternative. -/
def hexDigit (c : Char) : Bool :=
  c.isDigit || ('a' ≤ c && c ≤ 'f') || ('A' ≤ c && c ≤ 'F')

/-- The multi-character operators of `TOKEN_RE`
(`== != <= >= -> ++ -- && || << >> ::`), as character pairs. -/
def twoCharOps : List (Char × Char) :=
  [('=','='), ('!','='), ('<','='), ('>','='), ('-','>'), ('+','+'),
   ('-','-'), ('&','&'), ('|','|'), ('<','<'), ('>','>'), (':',':')]

/-- The single-character punctuation alternative of `TOKEN_RE`: braces,
parens, brackets, and the listed operator and punctuation characters. -/
def puncts : List Char :=
  ['\x7b', '\x7d', '(', ')', '[', ']', ';', ',', '.', ':', '?', '~', '!',
   '%', '^', '&', '*', '+', '-', '/', '|', '<', '>', '=']

/-- Length of a `dropWhile` result never exceeds the input length. -/
theorem dropWhile_len_le (p : α → Bool) (l : List α) :
    (l.dropWhile p).length ≤ l.length :=
  (List.dropWhile_sublist p).length_le

/-- Number alternative of `TOKEN_RE` once the scanner is standing on a
digit `c`: take the remaining digits, then optionally a dot with its
trailing digits (possibly none). Returns the emitted token and the rest of
the input. -/
def numTok (c : Char) (cs : List Char) : Option (List Char) × List Char :=
  match cs.dropWhile Char.isDigit with
  | '.' :: rest2 =>
      (some ((c :: cs.takeWhile Char.isDigit) ++ '.' :: rest2.takeWhile Char.isDigit),
       rest2.dropWhile Char.isDigit)
  | rest => (some (c :: cs.takeWhile Char.isDigit), rest)

/-- Operator-or-punctuation tail of the scanner: try a two-character
operator at the current position, then single punctuation, otherwise skip
the character (whitespace and anything else unmatched by `TOKEN_RE`). -/
def opOrPunct (c : Char) (cs : List Char) : Option (List Char) × List Char :=
  match cs with
  | d :: rest =>
      if twoCharOps.contains (c, d) then (some [c, d], rest)
      else if puncts.contains c then (some [c], cs) else (none, cs)
  | [] => if puncts.contains c then (some [c], cs) else (none, cs)

/-- One step of `TOKEN_RE.finditer`: standing on character `c` with `cs`
remaining, try the alternatives in the regex's priority order
(identifier, hex literal, number, multi-char operator, punctuation) and
return the token emitted here (if any) with the unread rest. -/
def tokStep (c : Char) (cs : List Char) : Option (List Char) × List Char :=
  if isIdStart c then
    (some (c :: cs.takeWhile isWordChar), cs.dropWhile isWordChar)
  else if c.isDigit then
    match cs with
    | 'x' :: d :: rest =>
        if c = '0' && hexDigit d then
          (some (c :: 'x' :: d :: rest.takeWhile hexDigit),
           rest.dropWhile hexDigit)
        else numTok c cs
    | _ => numTok c cs
  else if c = '.' then
    match cs with
    | d :: _ =>
        if d.isDigit then
          (some (c :: cs.takeWhile Char.isDigit), cs.dropWhile Char.isDigit)
        else opOrPunct c cs
    | [] => opOrPunct c []
  else opOrPunct c cs

theorem numTok_snd_length (c : Char) (cs : List Char) :
    (numTok c cs).2.length ≤ cs.length := by
  unfold numTok
  split
  · rename_i rest2 heq
    have h1 := dropWhile_len_le Char.isDigit cs
    have h2 := dropWhile_len_le Char.isDigit rest2
    rw [heq] at h1
    simp only [List.length_cons] at h1
    simp only []
    omega
  · simpa using dropWhile_len_le Char.isDigit cs

theorem opOrPunct_snd_length (c : Char) (cs : List Char) :
    (opOrPunct c cs).2.length ≤ cs.length := by
  cases cs with
  | nil => simp only [opOrPunct]; split <;> simp
  | cons d rest =>
    simp only [opOrPunct]
    split
    · simp
    · split <;> simp

theorem tokStep_snd_length (c : Char) (cs : List Char) :
    (tokStep c cs).2.length ≤ cs.length := by
  unfold tokStep
  split
  · exact dropWhile_len_le isWordChar cs
  · split
    · split
      · rename_i d rest
        split
        · have h2 := dropWhile_len_le hexDigit rest
          simp only [List.length_cons]
          omega
        · exact numTok_snd_length c _
      · exact numTok_snd_length c _
    · split
      · split
        · split
          · exact dropWhile_len_le Char.isDigit _
          · exact opOrPunct_snd_length c _
        · exact opOrPunct_snd_length c []
      · exact opOrPunct_snd_length c cs

/-- Driver of the tokenizer: repeatedly applies `tokStep`, collecting the
emitted tokens, exactly as `TOKEN_RE.finditer` walks the masked source.
The `fuel` argument only bounds the number of scanner steps so that the
recursion is structural; since every step consumes at least one character
(`tokStep_snd_length`), any fuel at least the input length is exact, and
`tokAuxF_fuel` below shows the result is then independent of the fuel. -/
def tokAuxF : Nat → List Char → List (List Char)
  | 0, _ => []
  | _, [] => []
  | fuel + 1, c :: cs =>
    match tokStep c cs with
    | (some t, rest) => t :: tokAuxF fuel rest
    | (none, rest) => tokAuxF fuel rest

theorem tokAuxF_nil (f : Nat) : tokAuxF f [] = [] := by
  cases f <;> rfl

theorem tokAuxF_fuel : ∀ (f₁ f₂ : Nat) (l : List Char),
    l.length ≤ f₁ → l.length ≤ f₂ → tokAuxF f₁ l = tokAuxF f₂ l := by
  intro f₁
  induction f₁ with
  | zero =>
    intro f₂ l h1 _
    have : l = [] := List.eq_nil_of_length_eq_zero (Nat.le_zero.mp h1)
    subst this
    rw [tokAuxF_nil, tokAuxF_nil]
  | succ f ih =>
    intro f₂ l h1 h2
    cases l with
    | nil => rw [tokAuxF_nil, tokAuxF_nil]
    | cons c cs =>
      cases f₂ with
      | zero => simp at h2
      | succ g =>
        simp only [List.length_cons] at h1 h2
        have hle := tokStep_snd_length c cs
        simp only [tokAuxF]
        cases h : tokStep c cs with
        | mk t rest =>
          rw [h] at hle
          simp only [Prod.snd] at hle
          cases t with
          | none => exact ih g rest (by omega) (by omega)
          | some tok => simp only []; rw [ih g rest (by omega) (by omega)]

/-- Scanner loop at its exact fuel. -/
def tokAux (l : List Char) : List (List Char) :=
  tokAuxF l.length l

/-- Model of `tokenize` (c_similarity_fine_final.py, lines 36–37): the list
of `TOKEN_RE` matches over the (masked) source, in order. -/
def tokenize (code : String) : List String :=
  (tokAux code.data).map (fun l => String.mk l)

/-- The fixed `C_KEYWORDS` set of the scripts (case-sensitive). -/
def C_KEYWORDS : List String :=
  ["auto", "break", "case", "char", "const", "continue", "default", "do",
   "double", "else", "enum", "extern", "float", "for", "goto", "if",
   "inline", "int", "long", "register", "restrict", "return", "short",
   "signed", "sizeof", "static", "struct", "switch", "typedef", "union",
   "unsigned", "void", "volatile", "while", "_Bool", "_Complex",
   "_Imaginary"]

/-- Full match of a token against `[A-Za-z_][A-Za-z_0-9]*`. -/
def isIdentTok (t : String) : Bool :=
  match t.data with
  | [] => false
  | c :: cs => isIdStart c && cs.all isWordChar

/-- A token that the normalizer aliases: an identifier-shaped token that is
not a C keyword. -/
def isNK (t : String) : Bool :=
  isIdentTok t && !(C_KEYWORDS.contains t)

/-- Association-list lookup, modelling the `id_map` dict of
`normalize_identifiers` (whose keys are unique by construction). -/
def alookup : List (String × String) → String → Option String
  | [], _ => none
  | (s, v) :: m, t => if s = t then some v else alookup m t

/-- Loop body of `normalize_identifiers` (c_similarity_fine_final.py,
lines 39–47): walk the tokens, aliasing each non-keyword identifier to
`ID1, ID2, …` in first-seen order; `m` is the alias map built so far and
`nxt` the next fresh alias number. -/
def normAux : List String → List (String × String) → Nat → List String
  | [], _, _ => []
  | t :: ts, m, nxt =>
    if isNK t then
      match alookup m t with
      | some v => v :: normAux ts m nxt
      | none => ("ID" ++ toString nxt) :: normAux ts ((t, "ID" ++ toString nxt) :: m) (nxt + 1)
    else t :: normAux ts m nxt

/-- Model of `normalize_identifiers`. -/
def normalize_identifiers (tokens : List String) : List String :=
  normAux tokens [] 1

/-- Model of `shingles` (lines 49–51): the set of space-joined windows of
`k` consecutive tokens; empty when the stream is shorter than `k`. -/
def shingles (tokens : List String) (k : Nat) : Finset String :=
  if tokens.length < k then ∅
  else ((List.range (tokens.length - k + 1)).map
    (fun i => String.intercalate " " ((tokens.drop i).take k))).toFinset

/-- Model of `jaccard` (lines 53–56) over finite sets, in exact rational
arithmetic: 1 on two empty sets, else intersection size over union size
(with the dead guard for an empty union kept as in the source). -/
def jaccard (a b : Finset String) : ℚ :=
  if a = ∅ ∧ b = ∅ then 1
  else if (a ∪ b).card = 0 then 0
  else ((a ∩ b).card : ℚ) / ((a ∪ b).card : ℚ)

/-- Token-frequency bag `Counter(tok_norm)`: a Python `Counter` compares
equal exactly when the key→count maps agree, i.e. when the underlying
multisets of tokens agree, so the bag is modelled as a multiset. -/
def tf (tokens : List String) : Multiset String :=
  (tokens : Multiset String)

/-- Model of `extract_identifiers` (lines 77–78): the set of
identifier-shaped non-keyword tokens of the raw stream. -/
def extract_identifiers (tokens : List String) : Finset String :=
  (tokens.filter (fun t => isNK t)).toFinset

/-- Lowercasing of an ASCII character, modelling `str.lower` on the ASCII
tokens the lexer produces. -/
def lowerChar (c : Char) : Char :=
  if 'A' ≤ c && c ≤ 'Z' then Char.ofNat (c.toNat + 32) else c

/-- Lowercasing of a token. -/
def lowerStr (s : String) : String :=
  String.mk (s.data.map lowerChar)

/-- The `map_ctrl` dict of `control_stream` (lines 89–90): lowercased
control keyword → emitted tag. -/
def ctrlTag (t : String) : Option String :=
  if t = "if" then some "IF"
  else if t = "else" then some "ELSE"
  else if t = "for" then some "FOR"
  else if t = "while" then some "WHILE"
  else if t = "do" then some "DO"
  else if t = "switch" then some "SWITCH"
  else if t = "case" then some "CASE"
  else if t = "default" then some "DEFAULT"
  else if t = "return" then some "RETURN"
  else if t = "break" then some "BREAK"
  else if t = "continue" then some "CONTINUE"
  else none

/-- First pass of `control_stream` (lines 91–95): emit the control tag for
keywords (matched on the lowercased token), `BRACE{`/`BRACE}` for braces
and `SEMI` for semicolons; everything else emits nothing. -/
def streamOf : List String → List String
  | [] => []
  | t :: ts =>
    match ctrlTag (lowerStr t) with
    | some tag => tag :: streamOf ts
    | none =>
      if t = "\x7b" || t = "\x7d" then ("BRACE" ++ t) :: streamOf ts
      else if t = ";" then "SEMI" :: streamOf ts
      else streamOf ts

/-- Compression pass of `control_stream` (lines 96–98): append an element
only when it differs from the last one kept. The parameter carries the
last element of the output built so far (`none` while it is empty), which
is exactly what `comp[-1]` reads in the source. -/
def compAux : Option String → List String → List String
  | _, [] => []
  | last, s :: rest =>
    if last ≠ some s then s :: compAux (some s) rest
    else compAux last rest

/-- Model of `control_stream` (lines 87–99). -/
def control_stream (tokens : List String) : List String :=
  compAux none (streamOf tokens)

/-- Classical Levenshtein edit distance: the recurrence that the one-row
dynamic program of `levenshtein` (c_similarity_fine_final.py, lines 58–70)
computes, with unit insert/delete/substitute costs. -/
def levenshtein : List String → List String → Nat
  | [], b => b.length
  | a, [] => a.length
  | x :: xs, y :: ys =>
    min (min (levenshtein (x :: xs) ys + 1) (levenshtein xs (y :: ys) + 1))
      (levenshtein xs ys + if x = y then 0 else 1)
termination_by a b => a.length + b.length
decreasing_by all_goals simp only [List.length_cons]; omega

/-- Model of `sim_edit` (lines 72–75) in exact rational arithmetic. -/
def sim_edit (a b : List String) : ℚ :=
  if a = [] ∧ b = [] then 1
  else 1 - (levenshtein a b : ℚ) / ((max (max a.length b.length) 1 : Nat) : ℚ)

/-- Removal of all whitespace, the effect of substituting the empty string
for every run matched by the whitespace regex. -/
def remWs (l : List Char) : List Char :=
  l.filter (fun c => !pyIsSpace c)

/-- Substitution of `ID` for every maximal match of the identifier pattern
`[A-Za-z_]` followed by word characters, scanned left to right; `fuel`
bounds the steps (one step always consumes at least one character, so the
input length is sufficient). -/
def subIdentF : Nat → List Char → List Char
  | 0, _ => []
  | _, [] => []
  | f + 1, c :: cs =>
    if isIdStart c then 'I' :: 'D' :: subIdentF f (cs.dropWhile isWordChar)
    else c :: subIdentF f cs

/-- Regex substitution `[A-Za-z_]\w* → ID` at its exact fuel. -/
def subIdent (l : List Char) : List Char :=
  subIdentF l.length l

/-- Substitution of `NUM` for every maximal match of the digit pattern
(digits, optionally a dot followed by at least one digit), scanned left to
right with a step fuel as in `subIdentF`. -/
def subNumF : Nat → List Char → List Char
  | 0, _ => []
  | _, [] => []
  | f + 1, c :: cs =>
    if c.isDigit then
      match cs.dropWhile Char.isDigit with
      | '.' :: d :: ds =>
        if d.isDigit then 'N' :: 'U' :: 'M' :: subNumF f (ds.dropWhile Char.isDigit)
        else 'N' :: 'U' :: 'M' :: subNumF f (cs.dropWhile Char.isDigit)
      | rest => 'N' :: 'U' :: 'M' :: subNumF f rest
    else c :: subNumF f cs

/-- Regex substitution `\d+(\.\d+)? → NUM` at its exact fuel. -/
def subNum (l : List Char) : List Char :=
  subNumF l.length l

/-- Whether `p` occurs at the start of `s`. -/
def startsWithL : List Char → List Char → Bool
  | _, [] => true
  | [], _ :: _ => false
  | c :: cs, d :: ds => c = d && startsWithL cs ds

/-- Whether `p` occurs as a contiguous substring of `s`, modelling the
Python `in` test on strings. -/
def hasSubstr : List Char → List Char → Bool
  | [], p => p.isEmpty
  | s@(_ :: rest), p => startsWithL s p || hasSubstr rest p

/-- Python's `str.split(';')`: the (possibly empty) chunks of the string
between semicolons; splitting the empty string yields one empty chunk. -/
def splitSemi : List Char → List (List Char)
  | [] => [[]]
  | c :: cs =>
    if c = ';' then [] :: splitSemi cs
    else
      match splitSemi cs with
      | [] => [[c]]
      | p :: ps => (c :: p) :: ps

/-- Python's `str.strip()`: remove leading and trailing whitespace. -/
def stripWs (l : List Char) : List Char :=
  ((l.dropWhile pyIsSpace).reverse.dropWhile pyIsSpace).reverse

/-- The `while len(parts)<3: parts.append('')` padding of
`normalize_for_header`. -/
def padParts (ps : List (List Char)) : List (List Char) :=
  ps ++ List.replicate (3 - ps.length) []

/-- The `init` classifier of `normalize_for_header` (lines 115–119):
whitespace removed, empty means `NONE`, an `=` anywhere means
`ASSIGN_OR_DECL` (the `.*=` regex, whose any-char cannot cross a newline,
but all newlines were just removed), else `OTHER`. -/
def norm_init (s : List Char) : String :=
  let s2 := remWs s
  if s2 = [] then "NONE"
  else if s2.contains '=' then "ASSIGN_OR_DECL"
  else "OTHER"

/-- The `cond` classifier of `normalize_for_header` (lines 120–125):
whitespace removed, identifiers replaced by `ID`, numbers by `NUM`, then
classified by substring tests. -/
def norm_cond (s : List Char) : String :=
  let s2 := subNum (subIdent (remWs s))
  if hasSubstr s2 "ID<NUM".data || hasSubstr s2 "ID<=NUM".data then "ID<NUM"
  else if hasSubstr s2 "ID>NUM".data || hasSubstr s2 "ID>=NUM".data then "ID>NUM"
  else if hasSubstr s2 "ID==ID".data || hasSubstr s2 "ID==NUM".data then "EQ"
  else "COND"

/-- The `incr` classifier of `normalize_for_header` (lines 126–131); the
substring tests run on the merely whitespace-stripped text (no ID/NUM
substitution happens here in the source). -/
def norm_incr (s : List Char) : String :=
  let s2 := remWs s
  if s2 = [] then "NONE"
  else if hasSubstr s2 ['+', '+'] || hasSubstr s2 ['-', '-'] then "INCDEC"
  else if hasSubstr s2 ['+', '='] || hasSubstr s2 ['-', '='] ||
          hasSubstr s2 "=ID+NUM".data || hasSubstr s2 "=ID-NUM".data then "ARITH"
  else "OTHER"

/-- Model of `normalize_for_header` (lines 111–132): split the header on
semicolons, strip each part, pad to three parts, classify each. -/
def normalize_for_header (header : List Char) : String :=
  let parts := padParts ((splitSemi header).map stripWs)
  "FOR[" ++ norm_init (parts.getD 0 []) ++ ";" ++ norm_cond (parts.getD 1 []) ++
    ";" ++ norm_incr (parts.getD 2 []) ++ "]"

/-- Model of `normalize_while_cond` (lines 133–137). -/
def normalize_while_cond (cond : List Char) : String :=
  let s2 := subNum (subIdent (remWs cond))
  if hasSubstr s2 "ID<NUM".data || hasSubstr s2 "ID>NUM".data then "CMP_NUM"
  else if hasSubstr s2 "ID".data && !hasSubstr s2 "NUM".data then "COND_ID"
  else "COND"

/-- Depth-counting scan of `find_matching_paren` (lines 101–109), walking
the characters from `idx` with the running parenthesis `depth`; returns
the index where the depth first returns to zero at a closing parenthesis. -/
def fmpGo : List Char → Nat → Int → Option Nat
  | [], _, _ => none
  | c :: cs, idx, depth =>
    if c = '(' then fmpGo cs (idx + 1) (depth + 1)
    else if c = ')' then
      if depth - 1 = 0 then some idx else fmpGo cs (idx + 1) (depth - 1)
    else fmpGo cs (idx + 1) depth

/-- Model of `find_matching_paren`: scan from `start`; `none` models the
`-1` failure return. -/
def find_matching_paren (s : List Char) (start : Nat) : Option Nat :=
  fmpGo (s.drop start) start 0

/-- Whether a word-boundary-delimited occurrence of `w` starts at index
`q` of `s`: used as the `q`-th word character test. -/
def wordCharAt (s : List Char) (q : Nat) : Bool :=
  match s[q]? with
  | some c => isWordChar c
  | none => false

/-- Regex `\bw\b` tested at position `p` of `s`: the characters of `w`
occur there, not preceded and not followed by a word character. -/
def wordAt (s w : List Char) (p : Nat) : Bool :=
  ((s.drop p).take w.length == w)
  && (p = 0 || !wordCharAt s (p - 1))
  && !wordCharAt s (p + w.length)

/-- Regex search for `\bw\b` in `s` starting at index `i`: the first
position at or after `i` where the whole word matches. -/
def findWord (s w : List Char) (i : Nat) : Option Nat :=
  (List.range' i (s.length + 1 - i)).find? (fun p => wordAt s w p)

/-- The loops the signature scanner looks for. -/
inductive LoopKind where
  | forK : LoopKind
  | whileK : LoopKind
deriving DecidableEq

def forWord : List Char := ['f', 'o', 'r']

def whileWord : List Char := ['w', 'h', 'i', 'l', 'e']

/-- Length of the matched keyword. -/
def kwLen : LoopKind → Nat
  | .forK => 3
  | .whileK => 5

/-- The keyword search of `extract_loop_signatures` (lines 141–146):
search `for` and `while` from `i` and keep whichever starts earlier
(`for` on the impossible tie), as the source's comparison does. -/
def nextKw (s : List Char) (i : Nat) : Option (LoopKind × Nat) :=
  match findWord s forWord i, findWord s whileWord i with
  | some pf, some pw => if pf < pw then some (.forK, pf) else some (.whileK, pw)
  | some pf, none => some (.forK, pf)
  | none, some pw => some (.whileK, pw)
  | none, none => none

/-- The `while j<n and code_clean[j].isspace(): j+=1` scan (line 148). -/
def skipWs (s : List Char) (j : Nat) : Nat :=
  j + ((s.drop j).takeWhile pyIsSpace).length

/-- Signature built for the header text between the parentheses. -/
def mkSig : LoopKind → List Char → String
  | .forK, inside => normalize_for_header inside
  | .whileK, inside => "WHILE[" ++ normalize_while_cond inside ++ "]"

/-- Scan loop of `extract_loop_signatures` (lines 138–155): find the next
`for`/`while` keyword from position `i`; move past it; if an open
parenthesis follows (after whitespace) and closes, record the signature of
the text inside and resume after the closing parenthesis, otherwise resume
right after the keyword (the source's `continue` with `i=m.end()`). The
`fuel` bounds the iterations; every iteration strictly advances `i`
(see the advance bounds proved below), so `s.length + 1` steps always
suffice. -/
def elsAuxF : Nat → List Char → Nat → Finset String
  | 0, _, _ => ∅
  | f + 1, s, i =>
    match nextKw s i with
    | none => ∅
    | some (kind, p) =>
      let i2 := p + kwLen kind
      let j := skipWs s i2
      if s[j]? = some '(' then
        match find_matching_paren s j with
        | none => elsAuxF f s i2
        | some k =>
            insert (mkSig kind ((s.drop (j + 1)).take (k - (j + 1))))
              (elsAuxF f s (k + 1))
      else elsAuxF f s i2

/-- Model of `extract_loop_signatures`, started at position 0 with
sufficient fuel. -/
def extract_loop_signatures (s : List Char) : Finset String :=
  elsAuxF (s.length + 1) s 0

/-- A Python `Counter` as its item list: keys (distinct in any Counter the
scripts build) paired with their counts. -/
abbrev PyCounter : Type := List (String × Nat)

/-- Count looked up in a counter (0 for an absent key). -/
def cnt (c : PyCounter) (key : String) : Nat :=
  ((c.filter (fun p => p.1 = key)).map Prod.snd).sum

/-- The iteration set `set(ca)|set(cb)` of the cosine body. -/
def keysU (ca cb : PyCounter) : List String :=
  (ca.map Prod.fst ++ cb.map Prod.fst).dedup

/-- The dot product `sum(ca[k]*cb[k] for k in keys)`. -/
def dotP (ca cb : PyCounter) : Nat :=
  ((keysU ca cb).map (fun k => cnt ca k * cnt cb k)).sum

/-- The squared Euclidean norm `sum(v*v for v in c.values())`. -/
def normSq (c : PyCounter) : Nat :=
  ((c.map (fun p => p.2 * p.2)).sum)

namespace FineFinal

/-- Model of `cosine` in c_similarity_fine_final.py (lines 157–162): no
special case for two empty bags; returns `dot/(na*nb)` when both norms are
nonzero (the float truthiness test `if na and nb`), else `0.0`. -/
noncomputable def cosine (ca cb : PyCounter) : ℝ :=
  let na := Real.sqrt (normSq ca)
  let nb := Real.sqrt (normSq cb)
  if na ≠ 0 ∧ nb ≠ 0 then (dotP ca cb : ℝ) / (na * nb) else 0

end FineFinal

namespace Final

/-- Model of `cosine` in c_similarity_final.py (lines 55–61): as the
fine-final one, but with the leading `if not ca and not cb: return 1.0`
special case for two empty bags. -/
noncomputable def cosine (ca cb : PyCounter) : ℝ :=
  if ca = [] ∧ cb = [] then 1
  else
    let na := Real.sqrt (normSq ca)
    let nb := Real.sqrt (normSq cb)
    if na ≠ 0 ∧ nb ≠ 0 then (dotP ca cb : ℝ) / (na * nb) else 0

end Final

/-- `statistics.fmean`: the arithmetic mean. -/
noncomputable def fmean (values : List ℝ) : ℝ :=
  values.sum / values.length

/-- `statistics.pstdev`: square root of the population variance. -/
noncomputable def pstdev (values : List ℝ) : ℝ :=
  Real.sqrt (((values.map (fun x => (x - fmean values) ^ 2)).sum) / values.length)

/-- A dynamically-typed Python value as `baseline_stats` can produce it:
`None`, a float, or a pair of floats. -/
inductive PyVal where
  | none : PyVal
  | num : ℝ → PyVal
  | pair : ℝ → ℝ → PyVal

/-- Model of `baseline_stats` (c_similarity_fine_final.py lines 255–258
and, identically, c_similarity_final.py lines 143–147). The source line
`return mean, sd if sd>0 else (mean, 0.0)` parses as
`(mean, (sd if sd>0 else (mean, 0.0)))`, so when the standard deviation is
not positive the second component is itself the tuple `(mean, 0.0)`. -/
noncomputable def baseline_stats (values : List ℝ) : PyVal × PyVal :=
  if values.length < 2 then (PyVal.none, PyVal.none)
  else
    let mean := fmean values
    let sd := pstdev values
    open Classical in
    if sd > 0 then (PyVal.num mean, PyVal.num sd)
    else (PyVal.num mean, PyVal.pair mean 0)

/-- The per-file fields that the pairwise passes consult: the author tag
parsed from the basename (`parse_qsigla(path)[1]`, e.g. `ab` from
`q1_ab.c` — two files in different directories can carry the same tag),
and the `too_short` / `error` flags of the extracted features. -/
structure SubFile where
  path : String
  sigla : String
  too_short : Bool
  error : Bool
deriving DecidableEq

/-- `itertools.combinations(plist, 2)`: the unordered pairs of a list in
left-to-right order. -/
def combos : List SubFile → List (SubFile × SubFile)
  | [] => []
  | x :: xs => (xs.map (fun y => (x, y))) ++ combos xs

namespace FineFinal

/-- The pair enumeration of `main` in c_similarity_fine_final.py
(lines 366–373): all combinations of the group, skipping a pair only when
one operand has an extraction error or is too short. -/
def main_pairs (plist : List SubFile) : List (SubFile × SubFile) :=
  (combos plist).filter
    (fun ab => !(ab.1.error || ab.2.error || ab.1.too_short || ab.2.too_short))

end FineFinal

namespace Fine

/-- The pair enumeration of `pairwise_fine` in c_similarity_fine.py
(lines 288–298) for one group: all combinations, skipping a pair when both
operands carry the same author tag (`meta[a][1] == meta[b][1]`). -/
def pairwise_fine (plist : List SubFile) : List (SubFile × SubFile) :=
  (combos plist).filter (fun ab => !(ab.1.sigla = ab.2.sigla : Bool))

end Fine

/-! ### Theorems about the claims -/

/-- C1, counterexample: on the source text `for (int i = 0; i < n; i++)`
the loop-signature extractor does not produce the signature
`FOR[ASSIGN_OR_DECL;ID<NUM;INCDEC]` claimed by the spec scenario: `n` is
an identifier, so the condition normalizes to `ID<ID`, which falls through
every comparison test to `COND`. -/
theorem for_header_scenario_not_idnum :
    "FOR[ASSIGN_OR_DECL;ID<NUM;INCDEC]" ∉
      extract_loop_signatures "for (int i = 0; i < n; i++)".data := by
  decide

/-- C1, amended: on the source text `for (int i = 0; i < n; i++)` the
loop-signature extractor produces exactly the signature set containing
`FOR[ASSIGN_OR_DECL;COND;INCDEC]` (the condition `i < n` becomes `ID<ID`
after identifier/number substitution and is classified `COND`). -/
theorem for_header_scenario_sig :
    extract_loop_signatures "for (int i = 0; i < n; i++)".data =
      {"FOR[ASSIGN_OR_DECL;COND;INCDEC]"} := by
  decide

/-- C2, counterexample: the compressed control stream of
`if(a){for(i=0;i<n;i++){}}` is not the seven-element sequence claimed by
the spec scenario — that sequence ends in two equal adjacent `BRACE}`
tags, which the compression pass collapses. -/
theorem control_stream_scenario_not_seven :
    control_stream (tokenize "if(a){for(i=0;i<n;i++){}}") ≠
      ["IF", "BRACE\x7b", "FOR", "SEMI", "BRACE\x7b", "BRACE\x7d", "BRACE\x7d"] := by
  decide

/-- C2, amended: the source `if(a){for(i=0;i<n;i++){}}` produces the
compressed control stream `[IF, BRACE{, FOR, SEMI, BRACE{, BRACE}]` — the
two consecutive closing braces compress into one tag, as do the two
consecutive semicolons. -/
theorem control_stream_scenario_compressed :
    control_stream (tokenize "if(a){for(i=0;i<n;i++){}}") =
      ["IF", "BRACE\x7b", "FOR", "SEMI", "BRACE\x7b", "BRACE\x7d"] := by
  decide

/-- C3, counterexample: the pairwise pass of `main` in
c_similarity_fine_final.py filters only on `error`/`too_short`, so a
question group holding two files with the same author tag (here the
basename `q1_ab.c` reached through two directories) does get a pair with
equal tags enumerated and scored. -/
theorem main_pairs_equal_sigla_pair :
    ((⟨"d1/q1_ab.c", "ab", false, false⟩ : SubFile),
     (⟨"d2/q1_ab.c", "ab", false, false⟩ : SubFile)) ∈
      FineFinal.main_pairs
        [⟨"d1/q1_ab.c", "ab", false, false⟩, ⟨"d2/q1_ab.c", "ab", false, false⟩]
    ∧ (⟨"d1/q1_ab.c", "ab", false, false⟩ : SubFile).sigla =
      (⟨"d2/q1_ab.c", "ab", false, false⟩ : SubFile).sigla := by
  decide

/-- C3, amended: the equal-author-tag skip exists in `pairwise_fine` of
c_similarity_fine.py — every pair that enumeration yields has distinct
author tags. -/
theorem pairwise_fine_distinct_sigla (plist : List SubFile)
    (ab : SubFile × SubFile) (h : ab ∈ Fine.pairwise_fine plist) :
    ab.1.sigla ≠ ab.2.sigla := by
  unfold Fine.pairwise_fine at h
  have h2 := List.of_mem_filter h
  simpa using h2

/-- Witness for `pairwise_fine_distinct_sigla` at a concrete two-file
group. -/
theorem pairwise_fine_distinct_sigla_witness :
    ((⟨"q1_ab.c", "ab", false, false⟩ : SubFile)).sigla ≠
      ((⟨"q1_cd.c", "cd", false, false⟩ : SubFile)).sigla :=
  pairwise_fine_distinct_sigla
    [⟨"q1_ab.c", "ab", false, false⟩, ⟨"q1_cd.c", "cd", false, false⟩]
    (⟨"q1_ab.c", "ab", false, false⟩, ⟨"q1_cd.c", "cd", false, false⟩)
    (by decide)

/-- C4, counterexample: the cosine of c_similarity_fine_final.py has no
special case for two empty bags, and returns 0 — not 1 — on them (both
norms are zero, so the `if na and nb` guard fails). -/
theorem cosine_fine_final_empty_empty_zero :
    FineFinal.cosine [] [] = 0 ∧ FineFinal.cosine [] [] ≠ 1 := by
  have h : FineFinal.cosine [] [] = 0 := by
    unfold FineFinal.cosine
    simp [normSq, Real.sqrt_zero]
  exact ⟨h, by rw [h]; norm_num⟩

/-- C4, amended: the claimed empty-handling rule holds of the cosine in
c_similarity_final.py: 1 on two empty bags, 0 against one empty bag, and
the dot product over the product of Euclidean norms whenever both norms
are nonzero. -/
theorem cosine_final_empty_rules :
    Final.cosine [] [] = 1
    ∧ (∀ ca : PyCounter, ca ≠ [] →
        Final.cosine ca [] = 0 ∧ Final.cosine [] ca = 0)
    ∧ (∀ ca cb : PyCounter, ¬(ca = [] ∧ cb = []) →
        Real.sqrt (normSq ca) ≠ 0 → Real.sqrt (normSq cb) ≠ 0 →
        Final.cosine ca cb =
          (dotP ca cb : ℝ) / (Real.sqrt (normSq ca) * Real.sqrt (normSq cb))) := by
  refine ⟨?_, ?_, ?_⟩
  · unfold Final.cosine
    rw [if_pos ⟨rfl, rfl⟩]
  · intro ca hca
    constructor
    · unfold Final.cosine
      rw [if_neg (fun hc => hca hc.1)]
      simp [normSq, Real.sqrt_zero]
    · unfold Final.cosine
      rw [if_neg (fun hc => hca hc.2)]
      simp [normSq, Real.sqrt_zero]
  · intro ca cb hne hna hnb
    unfold Final.cosine
    rw [if_neg hne]
    simp only []
    rw [if_pos ⟨hna, hnb⟩]

/-- Witness for `cosine_final_empty_rules` at concrete one-key bags. -/
theorem cosine_final_empty_rules_witness :
    Final.cosine [("a", 1)] [] = 0
    ∧ Final.cosine [("a", 1)] [("b", 2)] =
        (dotP [("a", 1)] [("b", 2)] : ℝ) /
          (Real.sqrt (normSq [("a", 1)]) * Real.sqrt (normSq [("b", 2)])) :=
  ⟨(cosine_final_empty_rules.2.1 [("a", 1)] (by decide)).1,
   cosine_final_empty_rules.2.2 [("a", 1)] [("b", 2)] (by decide)
     (ne_of_gt (Real.sqrt_pos.mpr (by norm_num [normSq])))
     (ne_of_gt (Real.sqrt_pos.mpr (by norm_num [normSq])))⟩

/-- C5: at the failing input `[0.5, 0.5]` (two equal composite scores, so
the population standard deviation is 0) `baseline_stats` does not return
the number `pstdev(values)` as second component: the precedence of the
conditional expression in `return mean, sd if sd>0 else (mean, 0.0)`
makes it return the tuple `(mean, 0.0)` there instead. -/
theorem baseline_stats_zero_sd :
    baseline_stats [(1 : ℝ)/2, 1/2] = (PyVal.num (1/2), PyVal.pair (1/2) 0)
    ∧ ∀ r : ℝ, (baseline_stats [(1 : ℝ)/2, 1/2]).2 ≠ PyVal.num r := by
  have hm : fmean [(1 : ℝ)/2, 1/2] = 1/2 := by
    unfold fmean
    norm_num
  have hv : pstdev [(1 : ℝ)/2, 1/2] = 0 := by
    unfold pstdev
    rw [hm]
    norm_num
  have hb : baseline_stats [(1 : ℝ)/2, 1/2] =
      (PyVal.num (1/2), PyVal.pair (1/2) 0) := by
    unfold baseline_stats
    rw [if_neg (by norm_num)]
    simp only [hm, hv]
    rw [if_neg (lt_irrefl 0)]
  refine ⟨hb, fun r h => ?_⟩
  rw [hb] at h
  simp at h

/-- Compression invariant of `compAux`: the output never has two equal
adjacent elements, and its first element differs from the carried last
element. -/
theorem compAux_chain : ∀ (l : List String) (o : Option String),
    List.Chain' (fun a b => a ≠ b) (compAux o l) ∧
      ∀ x, (compAux o l).head? = some x → o ≠ some x := by
  intro l
  induction l with
  | nil =>
    intro o
    refine ⟨List.chain'_nil, fun x hx => ?_⟩
    simp [compAux] at hx
  | cons s rest ih =>
    intro o
    by_cases h : o = some s
    · have hstep : compAux o (s :: rest) = compAux o rest := by
        simp [compAux, h]
      rw [hstep]
      exact ih o
    · have hstep : compAux o (s :: rest) = s :: compAux (some s) rest := by
        simp [compAux, h]
      rw [hstep]
      constructor
      · rw [List.chain'_cons']
        refine ⟨fun y hy hsy => ?_, (ih (some s)).1⟩
        exact (ih (some s)).2 y (Option.mem_def.mp hy) (by rw [hsy])
      · intro x hx
        simp only [List.head?_cons, Option.some.injEq] at hx
        subst hx
        exact h

/-- C7: the compressed control stream returned by `control_stream` never
contains two equal adjacent elements. -/
theorem control_stream_no_adjacent_dup (tokens : List String) :
    List.Chain' (fun a b => a ≠ b) (control_stream tokens) :=
  (compAux_chain (streamOf tokens) none).1

/-- Any token whose lowercasing is a control keyword puts its tag into the
uncompressed stream. -/
theorem mem_streamOf (tokens : List String) (t tag : String)
    (hmem : t ∈ tokens) (htag : ctrlTag (lowerStr t) = some tag) :
    tag ∈ streamOf tokens := by
  induction tokens with
  | nil => simp at hmem
  | cons s rest ih =>
    simp only [streamOf]
    cases hc : ctrlTag (lowerStr s) with
    | some tag2 =>
      rcases List.mem_cons.mp hmem with h | h
      · subst h
        rw [hc] at htag
        injection htag with he
        subst he
        exact List.mem_cons_self _ _
      · exact List.mem_cons_of_mem _ (ih h)
    | none =>
      rcases List.mem_cons.mp hmem with h | h
      · subst h
        rw [hc] at htag
        exact absurd htag (by simp)
      · split_ifs <;> first
          | exact List.mem_cons_of_mem _ (ih h)
          | exact ih h

/-- Compression never loses a value: every element of the input occurs in
the output, unless it equals the carried last element. -/
theorem mem_compAux : ∀ (l : List String) (o : Option String) (x : String),
    x ∈ l → x ∈ compAux o l ∨ o = some x := by
  intro l
  induction l with
  | nil =>
    intro o x hx
    simp at hx
  | cons s rest ih =>
    intro o x hx
    by_cases h : o = some s
    · have hstep : compAux o (s :: rest) = compAux o rest := by
        simp [compAux, h]
      rw [hstep]
      rcases List.mem_cons.mp hx with rfl | hx2
      · right; exact h
      · exact ih o x hx2
    · have hstep : compAux o (s :: rest) = s :: compAux (some s) rest := by
        simp [compAux, h]
      rw [hstep]
      rcases List.mem_cons.mp hx with rfl | hx2
      · left; exact List.mem_cons_self _ _
      · rcases ih (some s) x hx2 with hin | heq
        · left; exact List.mem_cons_of_mem _ hin
        · obtain rfl : s = x := Option.some.inj heq
          left; exact List.mem_cons_self _ _

/-- C9: control-keyword matching in `control_stream` is case-insensitive —
an identifier-shaped token outside the (case-sensitive) keyword set whose
lowercasing is a control keyword emits the corresponding tag into the
compressed control stream, while the very same token is also a member of
the extracted identifier set. -/
theorem control_keyword_case_insensitive (tokens : List String) (t tag : String)
    (hmem : t ∈ tokens) (hid : isIdentTok t = true)
    (hkw : C_KEYWORDS.contains t = false)
    (htag : ctrlTag (lowerStr t) = some tag) :
    tag ∈ control_stream tokens ∧ t ∈ extract_identifiers tokens := by
  constructor
  · have hs := mem_streamOf tokens t tag hmem htag
    rcases mem_compAux (streamOf tokens) none tag hs with h | h
    · exact h
    · simp at h
  · unfold extract_identifiers
    rw [List.mem_toFinset, List.mem_filter]
    refine ⟨hmem, ?_⟩
    unfold isNK
    rw [hid, hkw]
    rfl

/-- Witness for `control_keyword_case_insensitive`: the token `IF`. -/
theorem control_keyword_case_insensitive_witness :
    "IF" ∈ control_stream ["IF", "(", ")"] ∧
      "IF" ∈ extract_identifiers ["IF", "(", ")"] :=
  control_keyword_case_insensitive ["IF", "(", ")"] "IF" "IF"
    (by decide) (by decide) (by decide) (by decide)

/-- Lookup in the alias map after renaming every key by `ρ`: as long as `ρ`
separates `t` from the keys it does not equal, the renamed lookup of `ρ t`
agrees with the original lookup of `t`. -/
theorem alookup_map_rn (ρ : String → String) (t : String) :
    ∀ m : List (String × String),
    (∀ p ∈ m, ρ p.1 = ρ t → p.1 = t) →
    alookup (m.map (fun p => (ρ p.1, p.2))) (ρ t) = alookup m t := by
  intro m
  induction m with
  | nil => intro _; rfl
  | cons p m ih =>
    intro hinj
    obtain ⟨s, v⟩ := p
    simp only [List.map_cons, alookup]
    by_cases h : s = t
    · rw [if_pos (by rw [h]), if_pos h]
    · have hne : ρ s ≠ ρ t := fun hρ => h (hinj ⟨s, v⟩ (List.mem_cons_self _ _) hρ)
      rw [if_neg hne, if_neg h]
      exact ih (fun q hq => hinj q (List.mem_cons_of_mem _ hq))

/-- Core of the renaming invariance: running the aliasing loop over the
renamed tokens with the renamed alias map produces the same output as
running it over the original tokens with the original map, provided the
renaming maps aliased tokens to aliased tokens and is injective across the
map keys and the remaining tokens. -/
theorem normAux_rename (ρ : String → String) :
    ∀ (ts : List String) (m : List (String × String)) (nxt : Nat),
    (∀ p ∈ m, isNK p.1 = true) →
    (∀ t ∈ ts, isNK t = true → isNK (ρ t) = true) →
    (∀ a b : String, isNK a = true → isNK b = true →
      (a ∈ m.map Prod.fst ∨ a ∈ ts) → (b ∈ m.map Prod.fst ∨ b ∈ ts) →
      ρ a = ρ b → a = b) →
    normAux (ts.map (fun t => if isNK t then ρ t else t))
      (m.map (fun p => (ρ p.1, p.2))) nxt = normAux ts m nxt := by
  intro ts
  induction ts with
  | nil => intro m nxt _ _ _; rfl
  | cons t ts ih =>
    intro m nxt hkeys hNK hinj
    by_cases ht : isNK t = true
    · have hhead : (if isNK t then ρ t else t) = ρ t := if_pos ht
      have hρt : isNK (ρ t) = true := hNK t (List.mem_cons_self _ _) ht
      simp only [List.map_cons, hhead, normAux]
      rw [if_pos hρt, if_pos ht]
      have halk : alookup (m.map (fun p => (ρ p.1, p.2))) (ρ t) = alookup m t := by
        refine alookup_map_rn ρ t m (fun p hp hρ => ?_)
        exact hinj p.1 t (hkeys p hp) ht
          (Or.inl (List.mem_map_of_mem Prod.fst hp)) (Or.inr (List.mem_cons_self _ _)) hρ
      rw [halk]
      cases halk2 : alookup m t with
      | some v =>
        simp only []
        congr 1
        refine ih m nxt hkeys (fun u hu => hNK u (List.mem_cons_of_mem _ hu))
          (fun a b ha hb hma hmb => hinj a b ha hb ?_ ?_)
        · rcases hma with h | h
          · exact Or.inl h
          · exact Or.inr (List.mem_cons_of_mem _ h)
        · rcases hmb with h | h
          · exact Or.inl h
          · exact Or.inr (List.mem_cons_of_mem _ h)
      | none =>
        simp only []
        congr 1
        have hmap : ((t, "ID" ++ toString nxt) :: m).map (fun p => (ρ p.1, p.2)) =
            (ρ t, "ID" ++ toString nxt) :: m.map (fun p => (ρ p.1, p.2)) := rfl
        rw [← hmap]
        refine ih ((t, "ID" ++ toString nxt) :: m) (nxt + 1) ?_ ?_ ?_
        · intro p hp
          rcases List.mem_cons.mp hp with rfl | hp2
          · exact ht
          · exact hkeys p hp2
        · exact fun u hu => hNK u (List.mem_cons_of_mem _ hu)
        · intro a b ha hb hma hmb hρ
          refine hinj a b ha hb ?_ ?_ hρ
          · rcases hma with h | h
            · rw [List.map_cons] at h
              rcases List.mem_cons.mp h with rfl | h2
              · exact Or.inr (List.mem_cons_self _ _)
              · exact Or.inl h2
            · exact Or.inr (List.mem_cons_of_mem _ h)
          · rcases hmb with h | h
            · rw [List.map_cons] at h
              rcases List.mem_cons.mp h with rfl | h2
              · exact Or.inr (List.mem_cons_self _ _)
              · exact Or.inl h2
            · exact Or.inr (List.mem_cons_of_mem _ h)
    · have hhead : (if isNK t then ρ t else t) = t := if_neg ht
      simp only [List.map_cons, hhead, normAux]
      rw [if_neg ht, if_neg ht]
      congr 1
      refine ih m nxt hkeys (fun u hu => hNK u (List.mem_cons_of_mem _ hu))
        (fun a b ha hb hma hmb => hinj a b ha hb ?_ ?_)
      · rcases hma with h | h
        · exact Or.inl h
        · exact Or.inr (List.mem_cons_of_mem _ h)
      · rcases hmb with h | h
        · exact Or.inl h
        · exact Or.inr (List.mem_cons_of_mem _ h)

/-- Jaccard of any set with itself is 1. -/
theorem jaccard_self (A : Finset String) : jaccard A A = 1 := by
  by_cases hA : A = ∅
  · simp [jaccard, hA]
  · unfold jaccard
    rw [if_neg (fun hc => hA hc.1)]
    rw [Finset.union_self, Finset.inter_self]
    have hcard : A.card ≠ 0 :=
      Finset.card_ne_zero.mpr (Finset.nonempty_iff_ne_empty.mpr hA)
    rw [if_neg hcard]
    exact div_self (Nat.cast_ne_zero.mpr hcard)

/-- C6: renaming every non-keyword identifier of a token stream through an
injective map `ρ` that produces fresh non-keyword identifiers (colliding
with no other token of the stream) leaves the normalized token stream, the
k-shingle set and the token-frequency bag unchanged, and therefore the
shingle Jaccard between the original and the renamed stream is 1. -/
theorem rename_invariance (tokens : List String) (ρ : String → String) (k : Nat)
    (hNK : ∀ t ∈ tokens, isNK t = true → isNK (ρ t) = true)
    (hinj : ∀ a ∈ tokens, ∀ b ∈ tokens,
      isNK a = true → isNK b = true → ρ a = ρ b → a = b)
    (_hfresh : ∀ a ∈ tokens, isNK a = true → ∀ b ∈ tokens, ρ a ≠ b ∨ a = b) :
    normalize_identifiers (tokens.map (fun t => if isNK t then ρ t else t)) =
      normalize_identifiers tokens
    ∧ shingles (normalize_identifiers
        (tokens.map (fun t => if isNK t then ρ t else t))) k =
      shingles (normalize_identifiers tokens) k
    ∧ tf (normalize_identifiers (tokens.map (fun t => if isNK t then ρ t else t))) =
      tf (normalize_identifiers tokens)
    ∧ jaccard
        (shingles (normalize_identifiers
          (tokens.map (fun t => if isNK t then ρ t else t))) k)
        (shingles (normalize_identifiers tokens) k) = 1 := by
  have hmain : normalize_identifiers
      (tokens.map (fun t => if isNK t then ρ t else t)) =
      normalize_identifiers tokens := by
    unfold normalize_identifiers
    have h0 : (([] : List (String × String)).map (fun p => (ρ p.1, p.2))) = [] := rfl
    rw [← h0]
    refine normAux_rename ρ tokens [] 1 (by intro p hp; simp at hp) hNK ?_
    intro a b ha hb hma hmb hρ
    rcases hma with h | h
    · simp at h
    · rcases hmb with h2 | h2
      · simp at h2
      · exact hinj a h b h2 ha hb hρ
  refine ⟨hmain, by rw [hmain], by rw [hmain], by rw [hmain]; exact jaccard_self _⟩

/-- Witness for `rename_invariance`: the global rename `foo → bar` over
the stream `foo = foo + 1 ;`. -/
theorem rename_invariance_witness :
    normalize_identifiers
      (["foo", "=", "foo", "+", "1", ";"].map
        (fun t => if isNK t then (fun u => if u = "foo" then "bar" else u) t else t)) =
      normalize_identifiers ["foo", "=", "foo", "+", "1", ";"]
    ∧ shingles (normalize_identifiers
        (["foo", "=", "foo", "+", "1", ";"].map
          (fun t => if isNK t then (fun u => if u = "foo" then "bar" else u) t else t))) 5 =
      shingles (normalize_identifiers ["foo", "=", "foo", "+", "1", ";"]) 5
    ∧ tf (normalize_identifiers
        (["foo", "=", "foo", "+", "1", ";"].map
          (fun t => if isNK t then (fun u => if u = "foo" then "bar" else u) t else t))) =
      tf (normalize_identifiers ["foo", "=", "foo", "+", "1", ";"])
    ∧ jaccard
        (shingles (normalize_identifiers
          (["foo", "=", "foo", "+", "1", ";"].map
            (fun t => if isNK t then (fun u => if u = "foo" then "bar" else u) t else t))) 5)
        (shingles (normalize_identifiers ["foo", "=", "foo", "+", "1", ";"]) 5) = 1 :=
  rename_invariance ["foo", "=", "foo", "+", "1", ";"]
    (fun u => if u = "foo" then "bar" else u) 5
    (by decide) (by decide) (by decide)

theorem lev_nil_left (b : List String) : levenshtein [] b = b.length := by
  cases b <;> (unfold levenshtein; rfl)

theorem lev_nil_right (a : List String) : levenshtein a [] = a.length := by
  cases a <;> (unfold levenshtein; rfl)

theorem lev_cons (x y : String) (xs ys : List String) :
    levenshtein (x :: xs) (y :: ys) =
      min (min (levenshtein (x :: xs) ys + 1) (levenshtein xs (y :: ys) + 1))
        (levenshtein xs ys + if x = y then 0 else 1) := by
  rw [levenshtein]

theorem lev_self (a : List String) : levenshtein a a = 0 := by
  induction a with
  | nil => rw [lev_nil_left]; rfl
  | cons x xs ih =>
    rw [lev_cons, if_pos rfl, ih]
    simp

theorem lev_comm : ∀ (a b : List String), levenshtein a b = levenshtein b a := by
  intro a
  induction a with
  | nil => intro b; rw [lev_nil_left, lev_nil_right]
  | cons x xs iha =>
    intro b
    induction b with
    | nil => rw [lev_nil_left, lev_nil_right]
    | cons y ys ihb =>
      rw [lev_cons, lev_cons, ihb, iha (y :: ys), iha ys]
      have hif : (if x = y then 0 else 1) = (if y = x then 0 else 1) := by
        by_cases h : x = y
        · rw [if_pos h, if_pos h.symm]
        · rw [if_neg h, if_neg (fun hc => h hc.symm)]
      rw [hif, Nat.min_comm (levenshtein ys (x :: xs) + 1) (levenshtein (y :: ys) xs + 1)]

theorem lev_le_max : ∀ (a b : List String),
    levenshtein a b ≤ max a.length b.length := by
  intro a
  induction a with
  | nil => intro b; rw [lev_nil_left]; exact le_max_right _ _
  | cons x xs iha =>
    intro b
    induction b with
    | nil => rw [lev_nil_right]; exact le_max_left _ _
    | cons y ys ihb =>
      rw [lev_cons]
      have h1 := iha ys
      have h2 : (if x = y then 0 else 1) ≤ 1 := by split <;> omega
      have h3 := min_le_right
        (min (levenshtein (x :: xs) ys + 1) (levenshtein xs (y :: ys) + 1))
        (levenshtein xs ys + if x = y then 0 else 1)
      simp only [List.length_cons]
      omega

/-- C8: the control-flow edit similarity is within `[0,1]`, reflexive at 1
and symmetric; it is 1 on two empty sequences, and otherwise equals
`1 − levenshtein(x,y)/max(|x|,|y|)` where `levenshtein` is the classical
edit distance. -/
theorem sim_edit_props (x y : List String) :
    0 ≤ sim_edit x y ∧ sim_edit x y ≤ 1 ∧ sim_edit x x = 1 ∧
      sim_edit x y = sim_edit y x ∧ sim_edit ([] : List String) [] = 1 ∧
      (¬(x = [] ∧ y = []) →
        sim_edit x y = 1 -
          (levenshtein x y : ℚ) / ((max x.length y.length : Nat) : ℚ)) := by
  have hM : (1 : ℚ) ≤ ((max (max x.length y.length) 1 : Nat) : ℚ) := by
    exact_mod_cast le_max_right (max x.length y.length) 1
  have hM0 : (0 : ℚ) < ((max (max x.length y.length) 1 : Nat) : ℚ) :=
    lt_of_lt_of_le one_pos hM
  have hd : (levenshtein x y : ℚ) ≤ ((max (max x.length y.length) 1 : Nat) : ℚ) := by
    exact_mod_cast le_trans (lev_le_max x y) (le_max_left _ _)
  have hd0 : (0 : ℚ) ≤ (levenshtein x y : ℚ) := Nat.cast_nonneg _
  refine ⟨?_, ?_, ?_, ?_, ?_, ?_⟩
  · unfold sim_edit
    split
    · norm_num
    · have := (div_le_one hM0).mpr hd
      linarith
  · unfold sim_edit
    split
    · norm_num
    · have := div_nonneg hd0 (le_of_lt hM0)
      linarith
  · unfold sim_edit
    split
    · rfl
    · rw [lev_self]
      norm_num
  · unfold sim_edit
    by_cases h : x = [] ∧ y = []
    · rw [if_pos h, if_pos ⟨h.2, h.1⟩]
    · rw [if_neg h, if_neg (fun hc => h ⟨hc.2, hc.1⟩)]
      rw [lev_comm, max_comm x.length y.length]
  · unfold sim_edit
    rw [if_pos ⟨rfl, rfl⟩]
  · intro h
    unfold sim_edit
    rw [if_neg h]
    have h1 : 1 ≤ max x.length y.length := by
      rcases not_and_or.mp h with hx | hy
      · have := List.length_pos.mpr hx
        omega
      · have := List.length_pos.mpr hy
        omega
    rw [max_eq_left h1]

/-- Witness for `sim_edit_props` at the concrete sequences `[IF]` and
`[]`. -/
theorem sim_edit_props_witness :
    0 ≤ sim_edit ["IF"] [] ∧ sim_edit ["IF"] [] ≤ 1 ∧
      sim_edit ["IF"] ["IF"] = 1 ∧ sim_edit ["IF"] [] = sim_edit [] ["IF"] ∧
      sim_edit ([] : List String) [] = 1 ∧
      sim_edit ["IF"] [] = 1 - (levenshtein ["IF"] [] : ℚ) /
        ((max (["IF"] : List String).length ([] : List String).length : Nat) : ℚ) :=
  ⟨(sim_edit_props ["IF"] []).1, (sim_edit_props ["IF"] []).2.1,
   (sim_edit_props ["IF"] []).2.2.1, (sim_edit_props ["IF"] []).2.2.2.1,
   (sim_edit_props ["IF"] []).2.2.2.2.1,
   (sim_edit_props ["IF"] []).2.2.2.2.2 (by decide)⟩

/-- A successful `findWord` result lies at or after the start index and
satisfies the word-boundary test. -/
theorem findWord_spec (s w : List Char) (i p : Nat)
    (h : findWord s w i = some p) : i ≤ p ∧ wordAt s w p = true := by
  unfold findWord at h
  have h1 := List.find?_some h
  have h2 := List.mem_of_find?_eq_some h
  rw [List.mem_range'_1] at h2
  exact ⟨h2.1, h1⟩

/-- A word-boundary match of a nonempty word fits inside the string. -/
theorem wordAt_bound (s w : List Char) (p : Nat) (hw : w ≠ [])
    (h : wordAt s w p = true) : p + w.length ≤ s.length := by
  unfold wordAt at h
  simp only [Bool.and_eq_true] at h
  have h2 : (s.drop p).take w.length = w := eq_of_beq h.1.1
  have h3 : ((s.drop p).take w.length).length = w.length := by rw [h2]
  rw [List.length_take, List.length_drop] at h3
  have h5 : 0 < w.length := List.length_pos.mpr hw
  omega

/-- The keyword search of the loop scanner always lands past the current
position: the match starts at or after `i`, its end strictly exceeds `i`,
and it fits inside the string — the advance that makes the scan loop
terminate. -/
theorem nextKw_spec (s : List Char) (i : Nat) (k : LoopKind) (p : Nat)
    (h : nextKw s i = some (k, p)) :
    i ≤ p ∧ i < p + kwLen k ∧ p + kwLen k ≤ s.length := by
  have hforcase : ∀ pf : Nat, findWord s forWord i = some pf → (LoopKind.forK, pf) = (k, p) →
      i ≤ p ∧ i < p + kwLen k ∧ p + kwLen k ≤ s.length := by
    intro pf hf heq
    obtain ⟨hk2, hp2⟩ := Prod.mk.inj heq
    rw [← hk2, ← hp2]
    have hs := findWord_spec s forWord i pf hf
    have hb := wordAt_bound s forWord pf (by decide) hs.2
    norm_num [forWord] at hb
    refine ⟨hs.1, ?_, ?_⟩ <;> simp only [kwLen] <;> omega
  have hwhilecase : ∀ pw : Nat, findWord s whileWord i = some pw →
      (LoopKind.whileK, pw) = (k, p) →
      i ≤ p ∧ i < p + kwLen k ∧ p + kwLen k ≤ s.length := by
    intro pw hw heq
    obtain ⟨hk2, hp2⟩ := Prod.mk.inj heq
    rw [← hk2, ← hp2]
    have hs := findWord_spec s whileWord i pw hw
    have hb := wordAt_bound s whileWord pw (by decide) hs.2
    norm_num [whileWord] at hb
    refine ⟨hs.1, ?_, ?_⟩ <;> simp only [kwLen] <;> omega
  unfold nextKw at h
  cases hf : findWord s forWord i with
  | none =>
    cases hw : findWord s whileWord i with
    | none =>
      rw [hf, hw] at h
      exact absurd h (by simp)
    | some pw =>
      simp only [hf, hw] at h
      exact hwhilecase pw hw (Option.some.inj h)
  | some pf =>
    cases hw : findWord s whileWord i with
    | none =>
      simp only [hf, hw] at h
      exact hforcase pf hf (Option.some.inj h)
    | some pw =>
      simp only [hf, hw] at h
      split at h
      · exact hforcase pf hf (Option.some.inj h)
      · exact hwhilecase pw hw (Option.some.inj h)

/-- The depth-counting scan only returns indices inside the scanned
suffix. -/
theorem fmpGo_spec : ∀ (l : List Char) (idx : Nat) (d : Int) (kk : Nat),
    fmpGo l idx d = some kk → idx ≤ kk ∧ kk < idx + l.length := by
  intro l
  induction l with
  | nil =>
    intro idx d kk h
    exact absurd h (by simp [fmpGo])
  | cons c cs ih =>
    intro idx d kk h
    simp only [fmpGo] at h
    split_ifs at h with h1 h2 h3
    · have := ih (idx + 1) (d + 1) kk h
      simp only [List.length_cons]
      omega
    · obtain rfl : idx = kk := Option.some.inj h
      simp only [List.length_cons]
      omega
    · have := ih (idx + 1) (d - 1) kk h
      simp only [List.length_cons]
      omega
    · have := ih (idx + 1) d kk h
      simp only [List.length_cons]
      omega

/-- A successful `find_matching_paren` lands at or after the opening index
and strictly inside the string — the other advance of the scan loop. -/
theorem fmp_spec (s : List Char) (j kk : Nat)
    (h : find_matching_paren s j = some kk) : j ≤ kk ∧ kk < s.length := by
  unfold find_matching_paren at h
  have h2 := fmpGo_spec (s.drop j) j 0 kk h
  rw [List.length_drop] at h2
  by_cases hj : j ≤ s.length
  · omega
  · exfalso
    have hnil : s.drop j = [] := List.drop_eq_nil_of_le (by omega)
    rw [hnil] at h
    simp [fmpGo] at h

/-- Every signature the for-header normalizer builds is bracketed as
`FOR[…]`. -/
theorem nfh_shape (hd : List Char) :
    ∃ t, normalize_for_header hd = "FOR[" ++ t ++ "]" := by
  unfold normalize_for_header
  exact ⟨norm_init ((padParts ((splitSemi hd).map stripWs)).getD 0 []) ++ ";" ++
      norm_cond ((padParts ((splitSemi hd).map stripWs)).getD 1 []) ++ ";" ++
      norm_incr ((padParts ((splitSemi hd).map stripWs)).getD 2 []),
    by simp only [String.append_assoc]⟩

/-- Every element the scan loop inserts is a `FOR[…]` or `WHILE[…]`
signature. -/
theorem elsAuxF_shape : ∀ (f : Nat) (s : List Char) (i : Nat) (sig : String),
    sig ∈ elsAuxF f s i →
    (∃ t, sig = "FOR[" ++ t ++ "]") ∨ (∃ t, sig = "WHILE[" ++ t ++ "]") := by
  intro f
  induction f with
  | zero =>
    intro s i sig h
    simp [elsAuxF] at h
  | succ f ih =>
    intro s i sig h
    simp only [elsAuxF] at h
    cases hk : nextKw s i with
    | none =>
      simp only [hk] at h
      simp at h
    | some kp =>
      obtain ⟨kind, p⟩ := kp
      simp only [hk] at h
      split at h
      · cases hm : find_matching_paren s (skipWs s (p + kwLen kind)) with
        | none =>
          simp only [hm] at h
          exact ih s _ sig h
        | some kk =>
          simp only [hm] at h
          rw [Finset.mem_insert] at h
          rcases h with h | h
          · subst h
            cases kind with
            | forK => exact Or.inl (nfh_shape _)
            | whileK => exact Or.inr ⟨normalize_while_cond _, rfl⟩
          · exact ih s _ sig h
      · exact ih s _ sig h

/-- C10: the loop-signature scan always advances — a found keyword ends
strictly past the current position and a found closing parenthesis lies at
or after the opening one and inside the string, so each iteration strictly
increases the scan position (which is why `s.length + 1` steps of
`elsAuxF` are always enough) — and every signature in the returned set has
the shape `FOR[…]` or `WHILE[…]`. -/
theorem loop_scan_advance_and_shape :
    (∀ (s : List Char) (i : Nat) (k : LoopKind) (p : Nat),
        nextKw s i = some (k, p) → i ≤ p ∧ i < p + kwLen k ∧ p + kwLen k ≤ s.length)
    ∧ (∀ (s : List Char) (j kk : Nat),
        find_matching_paren s j = some kk → j ≤ kk ∧ kk < s.length)
    ∧ (∀ (s : List Char) (sig : String), sig ∈ extract_loop_signatures s →
        (∃ t, sig = "FOR[" ++ t ++ "]") ∨ (∃ t, sig = "WHILE[" ++ t ++ "]")) :=
  ⟨nextKw_spec, fmp_spec, fun s sig h => elsAuxF_shape _ s 0 sig h⟩

/-- Witness for `loop_scan_advance_and_shape` at concrete inputs. -/
theorem loop_scan_advance_and_shape_witness :
    ((0 : Nat) ≤ 0 ∧ 0 < 0 + kwLen .whileK ∧ 0 + kwLen .whileK ≤ ("while(x)".data).length)
    ∧ ((0 : Nat) ≤ 1 ∧ 1 < ("()".data).length)
    ∧ ((∃ t, "WHILE[COND_ID]" = "FOR[" ++ t ++ "]") ∨
       (∃ t, "WHILE[COND_ID]" = "WHILE[" ++ t ++ "]")) :=
  ⟨loop_scan_advance_and_shape.1 "while(x)".data 0 .whileK 0 (by decide),
   loop_scan_advance_and_shape.2.1 "()".data 0 1 (by decide),
   loop_scan_advance_and_shape.2.2 "while(x)".data "WHILE[COND_ID]" (by decide)⟩

end CSim
